import Mathlib

/-!
Verification development for the video post-processing pipeline
(`video_post_processor.py`).  The Python code is shallowly embedded:
pure numeric logic is translated to functions on `ℚ` (the only divisions
the tempo code performs are by `2.0` and `0.5`, which are exact in
binary floating point, so `ℚ` models the float arithmetic faithfully),
`while` loops become fuel-indexed recursions returning `Option`
(`none` = the loop did not finish within the given fuel), and the
filesystem effects of the batch driver become explicit state passing
over a record of "which artifact files exist" flags.
-/

namespace VideoPost

/-! ### `get_atempo_filter` (video_post_processor.py lines 110–131)

The Python code:
```
if abs(speed - 1.0) < 0.001: return "atempo=1.0"
filters = []
while speed > 2.0: filters.append("atempo=2.0"); speed /= 2.0
while speed < 0.5: filters.append("atempo=0.5"); speed /= 0.5
filters.append(f"atempo={speed:.6f}")
```
We model the returned filter chain as the list of stage factors
(`2`, `1/2`, and the final residual); the string rendering with six
decimal places is presentation only.  Each `while` loop is a
fuel-indexed recursion: `none` means the loop would still be running
after `fuel` iterations. -/

/-- One cascading stage list for `while speed > 2.0: speed /= 2.0`:
returns the emitted stage factors and the residual speed, or `none`
if `fuel` iterations do not suffice to exit the loop. -/
def accelLoop : ℕ → ℚ → Option (List ℚ × ℚ)
  | 0, speed => if 2 < speed then none else some ([], speed)
  | fuel + 1, speed =>
    if 2 < speed then
      (accelLoop fuel (speed / 2)).map (fun p => ((2 : ℚ) :: p.1, p.2))
    else
      some ([], speed)

/-- One cascading stage list for `while speed < 0.5: speed /= 0.5`
(dividing by `0.5` is multiplying by `2`): returns the emitted stage
factors and the residual speed, or `none` if `fuel` iterations do not
suffice to exit the loop. -/
def decelLoop : ℕ → ℚ → Option (List ℚ × ℚ)
  | 0, speed => if speed < 1/2 then none else some ([], speed)
  | fuel + 1, speed =>
    if speed < 1/2 then
      (decelLoop fuel (speed / (1/2))).map (fun p => ((1/2 : ℚ) :: p.1, p.2))
    else
      some ([], speed)

/-- `get_atempo_filter`, fuel-indexed: the list of atempo stage factors
the Python function emits, or `none` when the loops would not have
finished within `fuel` iterations each. -/
def get_atempo_filterFuel (fuel : ℕ) (speed : ℚ) : Option (List ℚ) :=
  if |speed - 1| < 1/1000 then some [1]
  else do
    let p ← accelLoop fuel speed
    let q ← decelLoop fuel p.2
    some (p.1 ++ q.1 ++ [q.2])

/-- Canonical fuel: enough iterations for both loops on input `speed`
(proved sufficient below for every positive `speed`). -/
def atempoFuel (speed : ℚ) : ℕ := speed.num.natAbs + speed.den

/-- The embedded `get_atempo_filter`: stage-factor list of the filter
chain, `none` exactly when the Python loops would not terminate. -/
def get_atempo_filter (speed : ℚ) : Option (List ℚ) :=
  get_atempo_filterFuel (atempoFuel speed) speed

/-! #### Loop lemmas -/

theorem accelLoop_of_le {speed : ℚ} (fuel : ℕ) (h : speed ≤ 2) :
    accelLoop fuel speed = some ([], speed) := by
  cases fuel with
  | zero => simp only [accelLoop] ; rw [if_neg (not_lt.2 h)]
  | succ n => simp only [accelLoop] ; rw [if_neg (not_lt.2 h)]

theorem accelLoop_isSome {fuel : ℕ} {speed : ℚ} (h : speed ≤ 2 * 2 ^ fuel) :
    (accelLoop fuel speed).isSome := by
  induction fuel generalizing speed with
  | zero =>
    simp only [pow_zero, mul_one] at h
    rw [accelLoop_of_le 0 h]
    rfl
  | succ n ih =>
    by_cases hs : 2 < speed
    · have h2 : speed / 2 ≤ 2 * 2 ^ n := by
        rw [div_le_iff₀ (by norm_num : (0:ℚ) < 2)]
        calc speed ≤ 2 * 2 ^ (n + 1) := h
        _ = 2 * 2 ^ n * 2 := by ring
      simp only [accelLoop]
      rw [if_pos hs, Option.isSome_map']
      exact ih h2
    · rw [accelLoop_of_le (n + 1) (not_lt.1 hs)]
      rfl

theorem accelLoop_spec {fuel : ℕ} {speed : ℚ} {fs : List ℚ} {r : ℚ}
    (h : accelLoop fuel speed = some (fs, r)) :
    (∀ x ∈ fs, x = 2) ∧ fs.prod * r = speed ∧ r ≤ 2 ∧
      (0 < speed → 0 < r) ∧ (r = speed ∨ 1 < r) := by
  induction fuel generalizing speed fs r with
  | zero =>
    by_cases hs : 2 < speed
    · simp only [accelLoop] at h
      rw [if_pos hs] at h
      exact absurd h (by simp)
    · simp only [accelLoop] at h
      rw [if_neg hs] at h
      simp only [Option.some.injEq, Prod.mk.injEq] at h
      obtain ⟨rfl, rfl⟩ := h
      exact ⟨by simp, by simp, not_lt.1 hs, fun h => h, Or.inl rfl⟩
  | succ n ih =>
    by_cases hs : 2 < speed
    · simp only [accelLoop] at h
      rw [if_pos hs] at h
      rw [Option.map_eq_some'] at h
      obtain ⟨⟨fs', r'⟩, hrec, heq⟩ := h
      obtain ⟨h1, h2, h3, h4, h5⟩ := ih hrec
      simp only [Prod.mk.injEq] at heq
      obtain ⟨rfl, rfl⟩ := heq
      refine ⟨?_, ?_, h3, ?_, ?_⟩
      · intro x hx
        rcases List.mem_cons.1 hx with rfl | hx
        · rfl
        · exact h1 x hx
      · simp only [List.prod_cons]
        have hp : fs'.prod * r' = speed / 2 := h2
        field_simp at hp ⊢
        linarith
      · intro hsp
        exact h4 (by linarith)
      · right
        rcases h5 with rfl | h5
        · linarith
        · exact h5
    · simp only [accelLoop] at h
      rw [if_neg hs] at h
      simp only [Option.some.injEq, Prod.mk.injEq] at h
      obtain ⟨rfl, rfl⟩ := h
      exact ⟨by simp, by simp, not_lt.1 hs, fun h => h, Or.inl rfl⟩

theorem decelLoop_of_ge {speed : ℚ} (fuel : ℕ) (h : 1/2 ≤ speed) :
    decelLoop fuel speed = some ([], speed) := by
  cases fuel with
  | zero => simp only [decelLoop] ; rw [if_neg (not_lt.2 h)]
  | succ n => simp only [decelLoop] ; rw [if_neg (not_lt.2 h)]

theorem decelLoop_isSome {fuel : ℕ} {speed : ℚ} (h : 1 ≤ 2 * speed * 2 ^ fuel) :
    (decelLoop fuel speed).isSome := by
  induction fuel generalizing speed with
  | zero =>
    simp only [pow_zero, mul_one] at h
    rw [decelLoop_of_ge 0 (by linarith)]
    rfl
  | succ n ih =>
    by_cases hs : speed < 1/2
    · have h2 : 1 ≤ 2 * (speed / (1/2)) * 2 ^ n := by
        calc (1:ℚ) ≤ 2 * speed * 2 ^ (n + 1) := h
        _ = 2 * (speed / (1/2)) * 2 ^ n := by ring
      simp only [decelLoop]
      rw [if_pos hs, Option.isSome_map']
      exact ih h2
    · rw [decelLoop_of_ge (n + 1) (not_lt.1 hs)]
      rfl

theorem decelLoop_spec {fuel : ℕ} {speed : ℚ} {fs : List ℚ} {r : ℚ}
    (h : decelLoop fuel speed = some (fs, r)) :
    (∀ x ∈ fs, x = 1/2) ∧ fs.prod * r = speed ∧ 1/2 ≤ r ∧ r ≤ max speed 1 := by
  induction fuel generalizing speed fs r with
  | zero =>
    by_cases hs : speed < 1/2
    · simp only [decelLoop] at h
      rw [if_pos hs] at h
      exact absurd h (by simp)
    · simp only [decelLoop] at h
      rw [if_neg hs] at h
      simp only [Option.some.injEq, Prod.mk.injEq] at h
      obtain ⟨rfl, rfl⟩ := h
      exact ⟨by simp, by simp, not_lt.1 hs, le_max_left _ _⟩
  | succ n ih =>
    by_cases hs : speed < 1/2
    · simp only [decelLoop] at h
      rw [if_pos hs] at h
      rw [Option.map_eq_some'] at h
      obtain ⟨⟨fs', r'⟩, hrec, heq⟩ := h
      obtain ⟨h1, h2, h3, h4⟩ := ih hrec
      simp only [Prod.mk.injEq] at heq
      obtain ⟨rfl, rfl⟩ := heq
      refine ⟨?_, ?_, h3, ?_⟩
      · intro x hx
        rcases List.mem_cons.1 hx with rfl | hx
        · rfl
        · exact h1 x hx
      · simp only [List.prod_cons]
        have hp : fs'.prod * r' = speed / (1/2) := h2
        field_simp at hp ⊢
        linarith
      · have hle : r' ≤ max (speed / (1/2)) 1 := h4
        have h2s : speed / (1/2) = 2 * speed := by ring
        rw [h2s] at hle
        have hmax : max (2 * speed) 1 ≤ max speed 1 := by
          rcases max_cases (2 * speed) 1 with ⟨he, hc⟩ | ⟨he, hc⟩ <;> rw [he]
          · have : 2 * speed < 1 := by linarith
            linarith [le_max_right speed 1]
          · exact le_max_right _ _
        exact hle.trans hmax
    · simp only [decelLoop] at h
      rw [if_neg hs] at h
      simp only [Option.some.injEq, Prod.mk.injEq] at h
      obtain ⟨rfl, rfl⟩ := h
      exact ⟨by simp, by simp, not_lt.1 hs, le_max_left _ _⟩

theorem decelLoop_none_of_nonpos {speed : ℚ} (h : speed ≤ 0) (fuel : ℕ) :
    decelLoop fuel speed = none := by
  induction fuel generalizing speed with
  | zero =>
    simp only [decelLoop]
    rw [if_pos (by linarith : speed < 1/2)]
  | succ n ih =>
    have hs : speed < 1/2 := by linarith
    have hnext : speed / (1/2) ≤ 0 := by
      have : speed / (1/2) = 2 * speed := by ring
      linarith [this]
    simp only [decelLoop]
    rw [if_pos hs, ih hnext]
    rfl

/-! #### Fuel sufficiency -/

theorem one_le_two_pow_rat (n : ℕ) : (1 : ℚ) ≤ 2 ^ n := by
  have h := pow_le_pow_right₀ (by norm_num : (1:ℚ) ≤ 2) (Nat.zero_le n)
  simpa using h

theorem rat_le_two_mul_two_pow {q : ℚ} (hq : 0 < q) : q ≤ 2 * 2 ^ atempoFuel q := by
  have hnum : 0 < q.num := Rat.num_pos.2 hq
  have hden : (1:ℚ) ≤ (q.den : ℚ) := by
    have := q.den_pos
    exact_mod_cast this
  have h1 : q ≤ (q.num : ℚ) := by
    conv_lhs => rw [← Rat.num_div_den q]
    exact div_le_self (by exact_mod_cast hnum.le) hden
  have h2 : (q.num : ℚ) = (q.num.natAbs : ℚ) := by
    rw [Int.cast_natAbs]
    rw [abs_of_nonneg (by exact_mod_cast hnum.le)]
  have h3 : (q.num.natAbs : ℚ) ≤ 2 ^ q.num.natAbs := by
    have := Nat.lt_two_pow q.num.natAbs
    have h' : (q.num.natAbs : ℚ) < ((2 ^ q.num.natAbs : ℕ) : ℚ) := by exact_mod_cast this
    push_cast at h'
    exact h'.le
  have h4 : (2:ℚ) ^ q.num.natAbs ≤ 2 ^ atempoFuel q :=
    pow_le_pow_right₀ (by norm_num) (Nat.le_add_right _ _)
  have h5 : (2:ℚ) ^ atempoFuel q ≤ 2 * 2 ^ atempoFuel q := by
    have hp : (0:ℚ) < 2 ^ atempoFuel q := by positivity
    linarith
  calc q ≤ (q.num : ℚ) := h1
  _ = (q.num.natAbs : ℚ) := h2
  _ ≤ 2 ^ q.num.natAbs := h3
  _ ≤ 2 ^ atempoFuel q := h4
  _ ≤ 2 * 2 ^ atempoFuel q := h5

theorem one_le_decel_fuel {q : ℚ} (hq : 0 < q) {fuel : ℕ} (hf : q.den ≤ fuel) :
    1 ≤ 2 * q * 2 ^ fuel := by
  have hnum : 0 < q.num := Rat.num_pos.2 hq
  have hdpos : (0:ℚ) < (q.den : ℚ) := by exact_mod_cast q.den_pos
  have h1 : (1:ℚ) / q.den ≤ q := by
    conv_rhs => rw [← Rat.num_div_den q]
    rw [div_le_div_iff₀ hdpos hdpos]
    have : (1:ℚ) ≤ (q.num : ℚ) := by exact_mod_cast hnum
    nlinarith
  have h1' : (1:ℚ) ≤ q * q.den := (div_le_iff₀ hdpos).1 h1
  have h2 : (q.den : ℚ) ≤ 2 ^ q.den := by
    have := Nat.lt_two_pow q.den
    have h' : (q.den : ℚ) < ((2 ^ q.den : ℕ) : ℚ) := by exact_mod_cast this
    push_cast at h'
    exact h'.le
  have h3 : (2:ℚ) ^ q.den ≤ 2 ^ fuel := pow_le_pow_right₀ (by norm_num) hf
  have h4 : q * (q.den : ℚ) ≤ q * 2 ^ fuel :=
    mul_le_mul_of_nonneg_left (h2.trans h3) hq.le
  nlinarith

/-! #### Chain characterization -/

theorem get_atempo_filter_eq_chain {q : ℚ} (hq : 0 < q) (hfar : ¬ |q - 1| < 1/1000) :
    ∃ fs1 r1 fs2 r2,
      accelLoop (atempoFuel q) q = some (fs1, r1) ∧
      decelLoop (atempoFuel q) r1 = some (fs2, r2) ∧
      get_atempo_filter q = some (fs1 ++ fs2 ++ [r2]) := by
  have hacc := accelLoop_isSome (rat_le_two_mul_two_pow hq)
  obtain ⟨⟨fs1, r1⟩, h1⟩ := Option.isSome_iff_exists.1 hacc
  obtain ⟨hs1, hp1, hr1le, hr1pos, hr1or⟩ := accelLoop_spec h1
  have hdec : (decelLoop (atempoFuel q) r1).isSome := by
    by_cases hq2 : 2 < q
    · have hr1gt : 1 < r1 := by
        rcases hr1or with rfl | h
        · linarith
        · exact h
      have h2p := one_le_two_pow_rat (atempoFuel q)
      apply decelLoop_isSome
      nlinarith
    · have heq := accelLoop_of_le (atempoFuel q) (not_lt.1 hq2)
      rw [h1] at heq
      simp only [Option.some.injEq, Prod.mk.injEq] at heq
      obtain ⟨-, rfl⟩ := heq
      exact decelLoop_isSome (one_le_decel_fuel hq (Nat.le_add_left _ _))
  obtain ⟨⟨fs2, r2⟩, h2⟩ := Option.isSome_iff_exists.1 hdec
  refine ⟨fs1, r1, fs2, r2, h1, h2, ?_⟩
  unfold get_atempo_filter get_atempo_filterFuel
  rw [if_neg hfar]
  simp [h1, h2]

/-- Full behavioral characterization of the canonical `get_atempo_filter`
on positive input away from `1`: the chain is cascading `2`/`1/2` stages
plus one residual stage in `[1/2, 2]`, with exact product `q`. -/
theorem gaf_chain_spec {q : ℚ} (hq : 0 < q) (hfar : ¬ |q - 1| < 1/1000) :
    ∃ st fin, get_atempo_filter q = some (st ++ [fin]) ∧
      (∀ x ∈ st, x = 2 ∨ x = 1/2) ∧
      1/2 ≤ fin ∧ fin ≤ 2 ∧
      (st ++ [fin]).prod = q ∧
      ((q < 1/2 ∨ 2 < q) → st ≠ []) := by
  obtain ⟨fs1, r1, fs2, r2, h1, h2, hgaf⟩ := get_atempo_filter_eq_chain hq hfar
  obtain ⟨hs1, hp1, hr1le, hr1pos, hr1or⟩ := accelLoop_spec h1
  obtain ⟨hs2, hp2, hr2ge, hr2le⟩ := decelLoop_spec h2
  refine ⟨fs1 ++ fs2, r2, by simpa using hgaf, ?_, hr2ge, ?_, ?_, ?_⟩
  · intro x hx
    rcases List.mem_append.1 hx with hx | hx
    · exact Or.inl (hs1 x hx)
    · exact Or.inr (hs2 x hx)
  · calc r2 ≤ max r1 1 := hr2le
    _ ≤ 2 := max_le hr1le (by norm_num)
  · rw [List.prod_append, List.prod_append, List.prod_singleton, mul_assoc, hp2, hp1]
  · rintro (hlt | hgt) hnil
    · have hfs1 : fs1 = [] ∧ r1 = q := by
        have heq := accelLoop_of_le (atempoFuel q) (le_of_lt (by linarith : q < 2))
        rw [h1] at heq
        simp only [Option.some.injEq, Prod.mk.injEq] at heq
        exact ⟨heq.1, heq.2⟩
      obtain ⟨hf1, hr1q⟩ := hfs1
      have hfs2 : fs2 = [] := by
        rcases List.append_eq_nil.1 (hf1 ▸ hnil) with ⟨-, h⟩
        exact h
      rw [hfs2] at hp2
      simp at hp2
      rw [hp2, hr1q] at hr2ge
      linarith
    · have hfs1ne : fs1 ≠ [] := by
        intro hf1
        rw [hf1] at hp1
        simp at hp1
        rw [hp1] at hr1le
        linarith
      exact hfs1ne (List.append_eq_nil.1 hnil).1

/-- Concrete evaluation used by the C1 witness: `get_atempo_filter 0.3`
emits one `0.5` stage and the in-range residual `0.6`. -/
theorem gaf_three_tenths : get_atempo_filter (3/10) = some [1/2, 3/5] := by
  have hfuel : atempoFuel (3/10) = 13 := by
    unfold atempoFuel
    norm_num
  unfold get_atempo_filter
  rw [hfuel]
  unfold get_atempo_filterFuel
  rw [if_neg (by rw [abs_lt] ; intro h ; obtain ⟨h1, h2⟩ := h ; linarith :
        ¬ |(3/10 : ℚ) - 1| < 1/1000)]
  have ha : accelLoop 13 (3/10 : ℚ) = some ([], 3/10) :=
    accelLoop_of_le _ (by norm_num)
  have hd : decelLoop 13 (3/10 : ℚ) = some ([1/2], 3/5) := by
    norm_num [decelLoop]
  simp [ha, hd]

/-- **C1**: for every tempo factor `f` outside `[0.5, 2.0]` (with `f > 0`),
the filter chain of `get_atempo_filter f` is a nonempty run of `0.5`/`2.0`
stages followed by one final stage; every stage lies in `[0.5, 2.0]` and
the product of all stages equals `f` (exactly in the exact-arithmetic
model, hence in particular within the `1e-6` tolerance). -/
theorem get_atempo_filter_decomposes {f : ℚ} (hpos : 0 < f)
    (hout : f < 1/2 ∨ 2 < f) :
    ∃ stages fin, get_atempo_filter f = some (stages ++ [fin]) ∧
      stages ≠ [] ∧ (∀ x ∈ stages, x = 2 ∨ x = 1/2) ∧
      (∀ x ∈ stages ++ [fin], 1/2 ≤ x ∧ x ≤ 2) ∧
      (stages ++ [fin]).prod = f ∧
      |(stages ++ [fin]).prod - f| ≤ 1/1000000 := by
  have hfar : ¬ |f - 1| < 1/1000 := by
    rw [abs_lt]
    intro h
    obtain ⟨h1, h2⟩ := h
    rcases hout with h | h <;> linarith
  obtain ⟨st, fin, hgaf, hst, hge, hle, hprod, hne⟩ := gaf_chain_spec hpos hfar
  refine ⟨st, fin, hgaf, hne hout, hst, ?_, hprod, by rw [hprod] ; simp⟩
  intro x hx
  rcases List.mem_append.1 hx with hx | hx
  · rcases hst x hx with rfl | rfl <;> norm_num
  · rw [List.mem_singleton.1 hx]
    exact ⟨hge, hle⟩

/-- Witness for C1 at the spec's own example `f = 0.3`: hypotheses hold
and the chain is `[0.5, 0.6]`. -/
theorem get_atempo_filter_decomposes_witness :
    (0 < (3/10 : ℚ)) ∧ ((3/10 : ℚ) < 1/2 ∨ 2 < (3/10 : ℚ)) ∧
    (∃ stages fin, get_atempo_filter (3/10) = some (stages ++ [fin]) ∧
      stages ≠ [] ∧ (∀ x ∈ stages, x = 2 ∨ x = 1/2) ∧
      (∀ x ∈ stages ++ [fin], 1/2 ≤ x ∧ x ≤ 2) ∧
      (stages ++ [fin]).prod = 3/10 ∧
      |(stages ++ [fin]).prod - 3/10| ≤ 1/1000000) ∧
    get_atempo_filter (3/10) = some [1/2, 3/5] :=
  ⟨by norm_num, Or.inl (by norm_num),
    get_atempo_filter_decomposes (by norm_num) (Or.inl (by norm_num)),
    gaf_three_tenths⟩

/-- **C4**: `get_atempo_filter` terminates for every speed `> 0` (the
canonical fuel suffices, so the fuel-indexed loops finish), and for any
speed `≤ 0` the `speed < 0.5` loop never exits: no amount of fuel makes
the function return. -/
theorem get_atempo_filter_terminates_iff_pos (speed : ℚ) :
    (0 < speed → (get_atempo_filter speed).isSome) ∧
    (speed ≤ 0 → ∀ fuel, get_atempo_filterFuel fuel speed = none) := by
  constructor
  · intro hpos
    by_cases hnear : |speed - 1| < 1/1000
    · unfold get_atempo_filter get_atempo_filterFuel
      rw [if_pos hnear]
      rfl
    · obtain ⟨fs1, r1, fs2, r2, -, -, hgaf⟩ :=
        get_atempo_filter_eq_chain hpos hnear
      rw [hgaf]
      rfl
  · intro hneg fuel
    have hfar : ¬ |speed - 1| < 1/1000 := by
      rw [abs_lt]
      intro h
      obtain ⟨h1, h2⟩ := h
      linarith
    unfold get_atempo_filterFuel
    rw [if_neg hfar]
    have ha : accelLoop fuel speed = some ([], speed) :=
      accelLoop_of_le _ (by linarith)
    have hd : decelLoop fuel speed = none :=
      decelLoop_none_of_nonpos hneg fuel
    simp [ha, hd]

/-- Witness for C4: termination at `speed = 3`, divergence (for fuel 5)
at `speed = -2`. -/
theorem get_atempo_filter_terminates_iff_pos_witness :
    (get_atempo_filter 3).isSome ∧ get_atempo_filterFuel 5 (-2) = none :=
  ⟨(get_atempo_filter_terminates_iff_pos 3).1 (by norm_num),
    (get_atempo_filter_terminates_iff_pos (-2)).2 (by norm_num) 5⟩

/-! ### `merge_with_audio` (video_post_processor.py lines 244–317)

The function probes both durations (`None` models a probe failure, and
Python's `if not dur_audio or not dur_video` also treats `0.0` as
falsy), computes `pts_factor = dur_audio / dur_video` and
`audio_speed_factor = 1 / pts_factor`, then builds one of two filter
graphs depending on `has_audio_stream`: with original audio the graph
tempo-scales and attenuates it (`video_volume`) and mixes it with the
amplified narration (`audio_volume`); without, narration scaled by
`audio_volume` is the sole audio source.  Success additionally requires
the encode subprocess to exit 0 (`encodeOk`). -/

/-- Abstract content of the constructed `filter_complex`: the PTS
multiplier for the video stream, the original-audio path (its atempo
chain and `video_volume` gain) when the clip has original audio, and
the narration gain. -/
structure FilterPlan where
  ptsFactor : ℚ
  origChain : Option (Option (List ℚ) × ℚ)
  narrVolume : ℚ

/-- The embedded `merge_with_audio`: `none` models `return False`. -/
def merge_with_audio (video_volume audio_volume : ℚ)
    (dur_audio dur_video : Option ℚ) (hasOrig : Bool) (encodeOk : Bool) :
    Option FilterPlan :=
  match dur_audio, dur_video with
  | some da, some dv =>
    if da = 0 ∨ dv = 0 then none
    else
      let pts_factor := da / dv
      let audio_speed_factor := 1 / pts_factor
      let plan : FilterPlan :=
        { ptsFactor := pts_factor
          origChain :=
            if hasOrig then some (get_atempo_filter audio_speed_factor, video_volume)
            else none
          narrVolume := audio_volume }
      if encodeOk then some plan else none
  | _, _ => none

/-- **C8**: a clip with no original audio stream merges successfully
(given valid durations and a successful encode), and the resulting
filter graph has no original-audio path: the narration scaled by
`audio_volume` is the sole audio source. -/
theorem merge_with_audio_no_orig_audio {vv av da dv : ℚ}
    (hda : da ≠ 0) (hdv : dv ≠ 0) :
    ∃ plan, merge_with_audio vv av (some da) (some dv) false true = some plan ∧
      plan.origChain = none ∧ plan.narrVolume = av ∧ plan.ptsFactor = da / dv := by
  refine ⟨{ ptsFactor := da / dv, origChain := none, narrVolume := av },
    ?_, rfl, rfl, rfl⟩
  rw [merge_with_audio]
  rw [if_neg (by push_neg ; exact ⟨hda, hdv⟩)]
  rfl

/-- Witness for C8: narration 2 s against a silent 1 s clip with the
default gains (`video_volume = 0.05`, `audio_volume = 4`). -/
theorem merge_with_audio_no_orig_audio_witness :
    ((2:ℚ) ≠ 0) ∧ ((1:ℚ) ≠ 0) ∧
    ∃ plan, merge_with_audio (1/20) 4 (some 2) (some 1) false true = some plan ∧
      plan.origChain = none ∧ plan.narrVolume = 4 ∧ plan.ptsFactor = 2 / 1 :=
  ⟨by norm_num, by norm_num,
    merge_with_audio_no_orig_audio (by norm_num) (by norm_num)⟩

/-- **C10**: if either probed duration is unavailable (`None`) or
exactly zero, `merge_with_audio` fails before computing the speed
ratio; conversely any successful merge carries
`pts_factor = dur_audio / dur_video` with both durations present and
the divisor nonzero. -/
theorem merge_with_audio_guards_division (vv av : ℚ) (da dv : Option ℚ)
    (hasOrig encodeOk : Bool) :
    (da = none ∨ dv = none ∨ da = some 0 ∨ dv = some 0 →
      merge_with_audio vv av da dv hasOrig encodeOk = none) ∧
    (∀ plan, merge_with_audio vv av da dv hasOrig encodeOk = some plan →
      ∃ a v, da = some a ∧ dv = some v ∧ a ≠ 0 ∧ v ≠ 0 ∧
        plan.ptsFactor = a / v) := by
  constructor
  · rintro (rfl | rfl | rfl | rfl)
    · rfl
    · cases da <;> rfl
    · cases dv <;> simp [merge_with_audio]
    · cases da with
      | none => rfl
      | some a => simp [merge_with_audio]
  · intro plan hplan
    match da, dv with
    | none, _ => exact absurd hplan (by cases dv <;> simp [merge_with_audio])
    | some a, none => exact absurd hplan (by simp [merge_with_audio])
    | some a, some v =>
      by_cases hz : a = 0 ∨ v = 0
      · rw [merge_with_audio] at hplan
        rw [if_pos hz] at hplan
        exact absurd hplan (by simp)
      · push_neg at hz
        refine ⟨a, v, rfl, rfl, hz.1, hz.2, ?_⟩
        rw [merge_with_audio] at hplan
        rw [if_neg (by push_neg ; exact hz)] at hplan
        cases encodeOk with
        | false => exact absurd hplan (by simp)
        | true =>
          simp only [if_true] at hplan
          have hrec := Option.some.inj hplan
          rw [← hrec]

/-- Witness for C10: a missing audio duration fails, and a successful
merge at 3 s audio / 2 s video has `pts_factor = 3/2`. -/
theorem merge_with_audio_guards_division_witness :
    merge_with_audio 1 4 none (some 2) true true = none :=
  (merge_with_audio_guards_division 1 4 none (some 2) true true).1 (Or.inl rfl)

/-! ### `trim_first_scene` (video_post_processor.py lines 151–207)

Decision structure of the trim step.  `outputExists`/`force` model the
cache check, `scenes` is the detector's list of
`(start_seconds, end_seconds)` pairs, `dur` the probed total duration
(`none` = probe failure, in which case the Python code raises inside the
`try` while formatting/comparing `None` and returns `False`), and
`ffmpegOk` the cut subprocess's exit status. -/

/-- What `trim_first_scene` did to the output file. -/
inductive TrimResult
  | skip
  | copied
  | cut (start : ℚ)
  | failed
deriving DecidableEq

/-- The embedded `trim_first_scene`: the action taken and the returned
success flag.  `copied` is a byte-identical `shutil.copy2` of the
input. -/
def trim_first_scene (outputExists force : Bool) (scenes : List (ℚ × ℚ))
    (dur : Option ℚ) (ffmpegOk : Bool) : TrimResult × Bool :=
  if outputExists && !force then (.skip, true)
  else
    match scenes with
    | [] => (.copied, true)
    | (_, e) :: _ =>
      match dur with
      | none => (.failed, false)
      | some d =>
        if d ≤ e then (.copied, true)
        else if ffmpegOk then (.cut e, true) else (.failed, false)

/-- **C2**: when the scene list is empty, or when the first scene's end
timestamp reaches the clip's total duration, `trim_first_scene`
(processing afresh) copies the input byte-identically and reports
success. -/
theorem trim_first_scene_passthrough (force : Bool) (scenes : List (ℚ × ℚ))
    (dur : Option ℚ) (ffmpegOk : Bool)
    (h : scenes = [] ∨
      ∃ s e rest d, scenes = (s, e) :: rest ∧ dur = some d ∧ d ≤ e) :
    trim_first_scene false force scenes dur ffmpegOk = (.copied, true) := by
  rcases h with rfl | ⟨s, e, rest, d, rfl, rfl, hle⟩
  · rfl
  · simp [trim_first_scene, hle]

/-- Witness for C2: a clip whose single detected scene spans the whole
3-second duration is passed through as a copy. -/
theorem trim_first_scene_passthrough_witness :
    trim_first_scene false false [((0:ℚ), (3:ℚ))] (some 3) true =
      (.copied, true) :=
  trim_first_scene_passthrough false [((0:ℚ), (3:ℚ))] (some 3) true
    (Or.inr ⟨0, 3, [], 3, rfl, rfl, le_refl 3⟩)

/-! ### `find_scenes` detector parameters (video_post_processor.py lines 133–145)

`find_scenes` constructs
`ContentDetector(threshold=self.threshold, min_scene_len=15)`.  The only
caller-controllable knob reaching the detector is the constructor's
`threshold`; the minimum scene length is the literal `15`. -/

/-- Arguments `find_scenes` hands to the scene detector. -/
structure DetectorParams where
  threshold : ℚ
  minSceneLen : ℕ
deriving DecidableEq

/-- The detector parameters as a function of everything a caller can
configure (the processor's `threshold`). -/
def find_scenes_detector (threshold : ℚ) : DetectorParams :=
  { threshold := threshold, minSceneLen := 15 }

/-- Counterexample to C7: no choice of caller configuration changes the
minimum scene length away from 15 — it is not configurable. -/
theorem find_scenes_min_len_fixed :
    ¬ ∃ t₁ t₂ : ℚ,
      (find_scenes_detector t₁).minSceneLen ≠
        (find_scenes_detector t₂).minSceneLen := by
  rintro ⟨t₁, t₂, h⟩
  exact h rfl

/-- Amended C7: the sensitivity threshold is caller-configurable and is
passed through to the detector, while the minimum scene length is fixed
at 15 frames for every caller. -/
theorem find_scenes_detector_threshold_only (t : ℚ) :
    find_scenes_detector t = { threshold := t, minSceneLen := 15 } := rfl

/-! ### `concatenate_videos` and `process` (video_post_processor.py lines 373–481)

Filesystem effects are modeled by a record of "artifact exists" flags on
the scratch directory: trimmed clips (`trimmed/`), merged segments
(`merged/`), the concat manifest `file_list.txt`, the temporary concat
output `final_merged.mp4`, and the caller-specified final output file.
`concatenate_videos` writes the manifest, runs the concat tool
(`exitOk` its exit status; `wrotePartial` whether a failing tool left a
partially written `final_merged.mp4` behind), and on success copies to
the final path when one was configured (`hasFinal`).  `process` chains
trim → merge → concat, and runs the cleanup block only when `cleanup`
is set **and** a final video was produced. -/

/-- Which scratch/output artifacts exist on disk. -/
structure FSState where
  trimmedNonempty : Bool
  mergedNonempty : Bool
  fileList : Bool
  tmpOutput : Bool
  finalOutput : Bool
deriving DecidableEq

/-- Fresh scratch area at the start of a run. -/
def initState : FSState := ⟨false, false, false, false, false⟩

/-- The embedded `concatenate_videos`: result is `none` on failure,
`some true` when the final video is the configured final path,
`some false` when it is the scratch `final_merged.mp4`. -/
def concatenate_videos (exitOk wrotePartial hasFinal : Bool)
    (segments : List String) (st : FSState) : Option Bool × FSState :=
  if segments.isEmpty then (none, st)
  else
    let st1 := { st with fileList := true }
    let st2 := { st1 with tmpOutput := st1.tmpOutput || exitOk || wrotePartial }
    if exitOk then
      if hasFinal then (some true, { st2 with finalOutput := true })
      else (some false, st2)
    else (none, st2)

/-- The embedded `process`: trim → merge → concat → (conditional)
cleanup.  `trimmedVideos`/`mergedSegs` are the outputs of stages 1–2. -/
def process (trimmedVideos mergedSegs : List String)
    (exitOk wrotePartial hasFinal cleanup : Bool) : Option Bool × FSState :=
  let st1 := { initState with trimmedNonempty := !trimmedVideos.isEmpty }
  if trimmedVideos.isEmpty then (none, st1)
  else
    let st2 := { st1 with mergedNonempty := !mergedSegs.isEmpty }
    if mergedSegs.isEmpty then (none, st2)
    else
      match concatenate_videos exitOk wrotePartial hasFinal mergedSegs st2 with
      | (some loc, st3) =>
        if cleanup then
          (some loc, { st3 with trimmedNonempty := false, mergedNonempty := false,
                                fileList := false,
                                tmpOutput := if hasFinal then false else st3.tmpOutput })
        else (some loc, st3)
      | (none, st3) => (none, st3)

/-- **C9**: concatenating an empty segment list returns the defined
failure value `None` and writes nothing — no manifest, no partial or
empty output file (the state is returned unchanged). -/
theorem concatenate_videos_empty_fails (exitOk wrotePartial hasFinal : Bool)
    (st : FSState) :
    concatenate_videos exitOk wrotePartial hasFinal [] st = (none, st) := rfl

/-- Counterexample to C3: with cleanup enabled, a run whose concat tool
exits non-zero after writing a partial `final_merged.mp4` ends with the
partial output, the manifest, and both intermediate folders still on
disk (cleanup only runs on success). -/
theorem process_leaves_files_on_concat_failure :
    (process ["a"] ["b"] false true true true).1 = none ∧
    (process ["a"] ["b"] false true true true).2.tmpOutput = true ∧
    (process ["a"] ["b"] false true true true).2.fileList = true ∧
    (process ["a"] ["b"] false true true true).2.trimmedNonempty = true ∧
    (process ["a"] ["b"] false true true true).2.mergedNonempty = true := by
  refine ⟨rfl, rfl, rfl, rfl, rfl⟩

/-- Amended C3: with cleanup enabled, intermediates (trimmed clips,
merged segments, manifest, and — when a final path is configured — the
temporary concat output) are removed **when the run succeeds**; when
the concat tool exits non-zero the run fails, cleanup is skipped, and
any partially written concat output remains on disk. -/
theorem process_cleanup_only_on_success (tv ms : List String) (eo wp hf : Bool) :
    ((process tv ms eo wp hf true).1.isSome →
      (process tv ms eo wp hf true).2.trimmedNonempty = false ∧
      (process tv ms eo wp hf true).2.mergedNonempty = false ∧
      (process tv ms eo wp hf true).2.fileList = false ∧
      (hf = true → (process tv ms eo wp hf true).2.tmpOutput = false)) ∧
    (eo = false → (process tv ms eo wp hf true).1 = none ∧
      (¬ tv.isEmpty → ¬ ms.isEmpty → wp = true →
        (process tv ms eo wp hf true).2.tmpOutput = true)) := by
  constructor
  · intro hsome
    by_cases h1 : tv.isEmpty <;> by_cases h2 : ms.isEmpty <;>
      cases eo <;> cases hf <;>
        simp [process, concatenate_videos, h1, h2] at hsome ⊢
  · rintro rfl
    by_cases h1 : tv.isEmpty <;> by_cases h2 : ms.isEmpty <;>
      cases wp <;>
        simp [process, concatenate_videos, h1, h2]

/-- Witness for the amended C3: a fully successful cleanup-enabled run
with a configured final path leaves no intermediates; and a concat
failure leaves the partial output behind. -/
theorem process_cleanup_only_on_success_witness :
    ((process ["a"] ["b"] true false true true).2.trimmedNonempty = false ∧
      (process ["a"] ["b"] true false true true).2.mergedNonempty = false ∧
      (process ["a"] ["b"] true false true true).2.fileList = false ∧
      ((true = true) → (process ["a"] ["b"] true false true true).2.tmpOutput = false)) ∧
    (process ["a"] ["b"] false true true true).2.tmpOutput = true :=
  ⟨(process_cleanup_only_on_success ["a"] ["b"] true false true).1 (by decide),
    ((process_cleanup_only_on_success ["a"] ["b"] false true true).2 rfl).2
      (by decide) (by decide) rfl⟩

/-! ### Natural sort and `merge_all_with_audio` (lines 319–367, 393–399)

`merge_all_with_audio` collects the narration files, orders them with
`natsort.natsorted`, and for each (enumerated) narration file whose
stem matches a trimmed clip, merges and appends the output
`f"{i:03d}_{base}.mp4"` to the segment list; `concatenate_videos`
writes the manifest by one in-order traversal of that list, so the
final concatenation order is the segment list's order.

`natsort`'s default key splits a name into alternating text and digit
runs, parsing digit runs as unsigned integers, and compares the
resulting tuples lexicographically (a leading digit run is preceded by
an empty text chunk so tuples stay aligned).  Text chunks are modeled
as `List Char` (Python compares strings by code point, as the `Char`
order does). -/

/-- Fold step: extend the (reversed) chunk list with one character,
merging consecutive digits into one number and consecutive non-digits
into one text run. -/
def natChunksStep (acc : List (List Char ⊕ ℕ)) (c : Char) : List (List Char ⊕ ℕ) :=
  if c.isDigit then
    match acc with
    | Sum.inr n :: rest => Sum.inr (n * 10 + (c.toNat - 48)) :: rest
    | _ => Sum.inr (c.toNat - 48) :: acc
  else
    match acc with
    | Sum.inl t :: rest => Sum.inl (t ++ [c]) :: rest
    | _ => Sum.inl [c] :: acc

/-- The alternating text/number chunks of a filename. -/
def natChunks (s : String) : List (List Char ⊕ ℕ) :=
  (s.data.foldl natChunksStep []).reverse

/-- `natsort`'s comparison key: the chunk tuple, padded so it always
starts with a text chunk, ordered lexicographically with numeric chunks
compared as numbers. -/
def natKey (s : String) : List (Lex (List Char ⊕ ℕ)) :=
  (match natChunks s with
    | Sum.inr n :: rest => Sum.inl [] :: Sum.inr n :: rest
    | l => l).map toLex

/-- The natural ("human") order on filenames. -/
def natLe (a b : String) : Prop := natKey a ≤ natKey b

instance : DecidableRel natLe :=
  fun a b => inferInstanceAs (Decidable (natKey a ≤ natKey b))

instance : IsTotal String natLe := ⟨fun a b => le_total (natKey a) (natKey b)⟩

instance : IsTrans String natLe := ⟨fun _ _ _ hab hbc => le_trans hab hbc⟩

/-- `natsort.natsorted`: stable sort by the natural order. -/
def natsorted (l : List String) : List String := List.insertionSort natLe l

/-- `pathlib.Path(...).stem`: the filename minus its last suffix (a
leading lone dot, as in `".hidden"`, does not start a suffix). -/
def pathStem (s : String) : String :=
  match s.data.reverse.dropWhile (fun c => c ≠ '.') with
  | [] => s
  | _ :: rest => if rest.isEmpty then s else String.mk rest.reverse

/-- An aligned segment: its enumeration index (used in the
`f"{i:03d}_{base}.mp4"` output name) and the matched stem. -/
structure Segment where
  idx : ℕ
  base : String
deriving DecidableEq

/-- The embedded `merge_all_with_audio`: natural-sort the narration
files, skip those without a matching clip stem or whose merge fails
(`mergeOk`), and emit segments in iteration order. -/
def merge_all_with_audio (audioFiles : List String) (videoStems : List String)
    (mergeOk : String → Bool) : List Segment :=
  ((natsorted audioFiles).enum).filterMap fun p =>
    if pathStem p.2 ∈ videoStems ∧ mergeOk (pathStem p.2) then
      some { idx := p.1, base := pathStem p.2 }
    else none

/-- The segment bases are an in-order selection (sublist) of the stems
of the natural-sorted narration list. -/
theorem merge_filterMap_sublist (V : List String) (ok : String → Bool)
    (l : List String) :
    ∀ n : ℕ,
      (((l.enumFrom n).filterMap fun p =>
        if pathStem p.2 ∈ V ∧ ok (pathStem p.2) then
          some { idx := p.1, base := pathStem p.2 : Segment }
        else none).map Segment.base).Sublist (l.map pathStem) := by
  induction l with
  | nil => intro n; simp
  | cons a t ih =>
    intro n
    simp only [List.enumFrom, List.filterMap_cons, List.map_cons]
    by_cases h : pathStem a ∈ V ∧ ok (pathStem a)
    · simp only [if_pos h, List.map_cons]
      exact (ih (n + 1)).cons₂ _
    · simp only [if_neg h]
      exact (ih (n + 1)).cons _

/-- **C5**: segments enter concatenation in the natural (human) sort
order of the narration filenames: the iteration order is `natsorted`
(a permutation of the discovered files, sorted under `natLe`), and the
produced segment bases are an in-order sublist of that ordering.
Numeric suffixes compare numerically, not lexically: `page_2.wav`
precedes `page_10.wav` under `natLe` even though plain code-point
comparison orders them the other way. -/
theorem merge_all_order_is_natural_sort (A V : List String)
    (ok : String → Bool) :
    List.Sorted natLe (natsorted A) ∧
    List.Perm (natsorted A) A ∧
    ((merge_all_with_audio A V ok).map Segment.base).Sublist
      ((natsorted A).map pathStem) ∧
    (natLe "page_2.wav" "page_10.wav" ∧ ¬ natLe "page_10.wav" "page_2.wav" ∧
      ("page_10.wav").data < ("page_2.wav").data) := by
  refine ⟨List.sorted_insertionSort natLe A, List.perm_insertionSort natLe A,
    ?_, by decide, by decide, by decide⟩
  have h := merge_filterMap_sublist V ok (natsorted A) 0
  simpa [merge_all_with_audio, List.enum] using h

/-- **C6**: an unmatched item never contributes a segment: if `b` is
not among the clip stems (a narration with no clip), or not among the
narration stems (a clip with no narration), then no produced segment
has base `b` — it never reaches the concatenation input list. -/
theorem merge_all_skips_unmatched (A V : List String) (ok : String → Bool)
    (b : String) (h : b ∉ V ∨ b ∉ A.map pathStem) :
    ∀ s ∈ merge_all_with_audio A V ok, s.base ≠ b := by
  intro s hs
  obtain ⟨p, hp, hsome⟩ := List.mem_filterMap.1 hs
  by_cases hc : pathStem p.2 ∈ V ∧ ok (pathStem p.2)
  · rw [if_pos hc] at hsome
    obtain ⟨hin, -⟩ := hc
    have hbase : s.base = pathStem p.2 := by
      rw [← Option.some.inj hsome]
    have hmem : p.2 ∈ A :=
      (List.perm_insertionSort natLe A).mem_iff.1 (List.snd_mem_of_mem_enum hp)
    rcases h with h | h
    · intro hb
      exact h (hb ▸ hbase ▸ hin)
    · intro hb
      exact h (hb ▸ hbase ▸ List.mem_map_of_mem pathStem hmem)
  · rw [if_neg hc] at hsome
    exact absurd hsome (by simp)

/-- Witness for C6: narration `intro.wav` has no matching clip stem in
`["page_2"]`, so no segment carries base `intro`. -/
theorem merge_all_skips_unmatched_witness :
    (("intro" : String) ∉ (["page_2"] : List String) ∨
      ("intro" : String) ∉ (["page_2.wav", "intro.wav"].map pathStem)) ∧
    ∀ s ∈ merge_all_with_audio ["page_2.wav", "intro.wav"] ["page_2"]
        (fun _ => true), s.base ≠ "intro" :=
  ⟨Or.inl (by decide),
    merge_all_skips_unmatched ["page_2.wav", "intro.wav"] ["page_2"]
      (fun _ => true) "intro" (Or.inl (by decide))⟩

end VideoPost
